import Mathlib

/-
Verification of the CAN signal codec and capture-analysis core of the
ford-f150-gen14-can-bus-interface repository, against its natural-language
specification.

The Python sources are shallowly embedded:
- machine integers become Nat / Int (Python ints are unbounded, so no wrapping);
- floats (timestamps, scale, offset, frequencies) become Rat, keeping exact
  arithmetic where the Python code performs float arithmetic;
- Python floor division `//` and modulo `%` on ints become Int `/` and `%`
  (Lean's Int division is Euclidean, which for the positive divisors used here
  coincides with Python's floor semantics);
- operations that can raise return Option, with `none` marking the raised
  exception; loops become List.foldl / List.foldlM over List.range, mirroring
  the Python iteration order.
-/

/- ===================================================================
   Bit-field extraction
   (src/message_watcher/can_embedded_logger.py, Signal._extract_motorola
    and Signal._extract_intel;
    src/message_watcher/can_standalone_logger.py, extract_signal;
    src/experiments/message_watcher/can_embedded_logger.py,
    EmbeddedCANLogger.extract_signal_value)
   =================================================================== -/

/-- `data_bytes = list(data) + [0] * (8 - len(data))` — the zero padding used
by every extractor before reading bits. -/
def padTo8 (data : List ℕ) : List ℕ :=
  data ++ List.replicate (8 - data.length) 0

/-- One guarded bit read with big-endian Motorola numbering, as written
identically in `Signal._extract_motorola`, `Signal._extract_intel`'s sibling and
`extract_signal`:
`byte_index = bit_pos // 8`, `bit_index = 7 - (bit_pos % 8)`, and the bit is
read only when `0 <= byte_index < len(data_bytes)` and `0 <= bit_index <= 7`,
contributing 0 otherwise. -/
def bigEndianBit (bytes : List ℕ) (bitPos : ℤ) : ℕ :=
  let byteIndex : ℤ := bitPos / 8
  let bitIndex : ℤ := 7 - bitPos % 8
  if 0 ≤ byteIndex ∧ byteIndex < (bytes.length : ℤ) ∧ 0 ≤ bitIndex ∧ bitIndex ≤ 7 then
    (bytes.getD byteIndex.toNat 0) >>> bitIndex.toNat &&& 1
  else 0

/-- `Signal._extract_motorola` (src/message_watcher/can_embedded_logger.py):
iterates `bit_pos` over `range(start - length + 1, start + 1)` and ORs each bit
into `raw_value` at `result_bit_pos = start - bit_pos`. -/
def extractMotorola (start length : ℕ) (data : List ℕ) : ℕ :=
  let bytes := padTo8 data
  (List.range length).foldl
    (fun (raw i : ℕ) =>
      let bitPos : ℤ := (start : ℤ) - (length : ℤ) + 1 + (i : ℤ)
      raw ||| bigEndianBit bytes bitPos <<< ((start : ℤ) - bitPos).toNat)
    0

/-- `StandaloneCANLogger.extract_signal`'s raw-bit loop
(src/message_watcher/can_standalone_logger.py): iterates `i` over
`range(length)`, reads `bit_position = start_bit - i` with the same byte/bit
mapping, and ORs the bit into `raw_value` at `length - 1 - i`. -/
def standaloneExtractBits (start length : ℕ) (data : List ℕ) : ℕ :=
  let bytes := padTo8 data
  (List.range length).foldl
    (fun (raw i : ℕ) =>
      let bitPos : ℤ := (start : ℤ) - (i : ℤ)
      raw ||| bigEndianBit bytes bitPos <<< (length - 1 - i))
    0

/-- One guarded bit read with Intel numbering (`Signal._extract_intel`):
`byte_index = bit_pos // 8`, `bit_index = bit_pos % 8`; bit positions here are
natural numbers since `start + i` never goes negative. -/
def littleEndianBit (bytes : List ℕ) (bitPos : ℕ) : ℕ :=
  let byteIndex := bitPos / 8
  let bitIndex := bitPos % 8
  if byteIndex < bytes.length ∧ bitIndex ≤ 7 then
    (bytes.getD byteIndex 0) >>> bitIndex &&& 1
  else 0

/-- `Signal._extract_intel` (src/message_watcher/can_embedded_logger.py). -/
def extractIntel (start length : ℕ) (data : List ℕ) : ℕ :=
  let bytes := padTo8 data
  (List.range length).foldl
    (fun raw i => raw ||| littleEndianBit bytes (start + i) <<< i)
    0

/-- `int.from_bytes(data, byteorder='little')`. -/
def fromBytesLE (data : List ℕ) : ℕ :=
  data.foldr (fun b acc => b + 256 * acc) 0

/-- `EmbeddedCANLogger.extract_signal_value`
(src/experiments/message_watcher/can_embedded_logger.py): converts the payload
to a little-endian integer and shifts by `bit_pos = start_bit - length + 1`.
A negative shift raises ValueError in Python, modelled by `none`. -/
def extractSignalValue (data : List ℕ) (start length : ℕ) : Option ℕ :=
  let dataInt := fromBytesLE data
  let bitPos : ℤ := (start : ℤ) - (length : ℤ) + 1
  let mask := 1 <<< length - 1
  if bitPos < 0 then none
  else some (dataInt >>> bitPos.toNat &&& mask)

/-- Known-vector test 1 payload: `[0x00,0x08,0x00,0x00,0x00,0x00,0x00,0x00]`. -/
def vec1 : List ℕ := [0x00, 0x08, 0x00, 0x00, 0x00, 0x00, 0x00, 0x00]

/-- Known-vector test 2 payload: `[0x00,0x00,0x32,0x00,0x00,0x00,0x00,0x00]`. -/
def vec2 : List ℕ := [0x00, 0x00, 0x32, 0x00, 0x00, 0x00, 0x00, 0x00]

/-- C1: the spec's two known vectors. The experiments extractor
(`extract_signal_value`) returns the specified raw values 2 and 50, but
`Signal._extract_motorola` — cited for the same property and documented as
decoding "identically to cantools" — returns 0 and 25 on the very same
descriptors and payloads. -/
theorem c1_known_vectors :
    extractSignalValue vec1 11 2 = some 2 ∧
    extractSignalValue vec2 22 7 = some 50 ∧
    extractMotorola 11 2 vec1 = 0 ∧
    extractMotorola 22 7 vec2 = 25 := by
  decide

/- ===================================================================
   Characterisation of the Motorola extraction loops (claim C2)
   =================================================================== -/

lemma bigEndianBit_le_one (bytes : List ℕ) (p : ℤ) : bigEndianBit bytes p ≤ 1 := by
  unfold bigEndianBit
  simp only []
  split
  · exact Nat.and_le_right
  · exact Nat.zero_le 1

lemma foldl_congr_mem {α β : Type} (l : List α) (g h : β → α → β) (b : β)
    (H : ∀ x : β, ∀ a ∈ l, g x a = h x a) : l.foldl g b = l.foldl h b := by
  induction l generalizing b with
  | nil => rfl
  | cons a t ih =>
      simp only [List.foldl_cons]
      rw [H b a (by simp)]
      exact ih _ (fun x c hc => H x c (by simp [hc]))

lemma orShiftSum (f : ℕ → ℕ) (hf : ∀ i, f i ≤ 1) (L : ℕ) :
    ∀ (n k acc : ℕ), k + n = L → 2 ^ n ∣ acc →
      (List.range' k n).foldl (fun raw i => raw ||| f i <<< (L - 1 - i)) acc
        = acc + ∑ i ∈ Finset.Ico k (k + n), f i * 2 ^ (L - 1 - i) := by
  intro n
  induction n with
  | zero => intro k acc _ _; simp
  | succ m ih =>
      intro k acc h hd
      rw [List.range'_succ]
      simp only [List.foldl_cons]
      obtain ⟨c, hc⟩ := hd
      have hLk : L - 1 - k = m := by omega
      have hshift : f k <<< (L - 1 - k) = f k * 2 ^ m := by
        rw [Nat.shiftLeft_eq, hLk]
      have hle : f k * 2 ^ m ≤ 2 ^ m := by
        calc f k * 2 ^ m ≤ 1 * 2 ^ m := Nat.mul_le_mul_right _ (hf k)
          _ = 2 ^ m := one_mul _
      have hlt : f k * 2 ^ m < 2 ^ (m + 1) := by
        calc f k * 2 ^ m ≤ 2 ^ m := hle
          _ < 2 ^ (m + 1) := by
              have : (2 : ℕ) ^ m < 2 ^ (m + 1) := by
                exact Nat.pow_lt_pow_right (by norm_num) (by omega)
              exact this
      have hor : acc ||| f k <<< (L - 1 - k) = acc + f k * 2 ^ m := by
        rw [hshift, hc]
        exact (Nat.mul_add_lt_is_or hlt c).symm
      rw [hor]
      have hd2 : 2 ^ m ∣ acc + f k * 2 ^ m := ⟨2 * c + f k, by rw [hc]; ring⟩
      rw [ih (k + 1) _ (by omega) hd2]
      rw [Finset.sum_eq_sum_Ico_succ_bot (by omega : k < k + (m + 1))]
      have h1 : k + 1 + m = k + (m + 1) := by omega
      rw [h1, hLk]
      ring

lemma foldlOrShift (f : ℕ → ℕ) (hf : ∀ i, f i ≤ 1) (L : ℕ) :
    (List.range L).foldl (fun raw i => raw ||| f i <<< (L - 1 - i)) 0
      = ∑ i ∈ Finset.range L, f i * 2 ^ (L - 1 - i) := by
  have h := orShiftSum f hf L L 0 0 (by omega) (dvd_zero _)
  rw [List.range_eq_range', Finset.range_eq_Ico]
  simp only [Nat.zero_add] at h
  simpa using h

/-- The bit that iteration `i` of the `_extract_motorola` loop reads. -/
def motBitAt (start length : ℕ) (data : List ℕ) (i : ℕ) : ℕ :=
  bigEndianBit (padTo8 data) ((start : ℤ) - (length : ℤ) + 1 + (i : ℤ))

/-- The bit that iteration `i` of the standalone `extract_signal` loop reads. -/
def staBitAt (start : ℕ) (data : List ℕ) (i : ℕ) : ℕ :=
  bigEndianBit (padTo8 data) ((start : ℤ) - (i : ℤ))

lemma extractMotorola_eq_sum (start length : ℕ) (data : List ℕ) :
    extractMotorola start length data
      = ∑ i ∈ Finset.range length, motBitAt start length data i * 2 ^ (length - 1 - i) := by
  have hcongr :
      extractMotorola start length data
        = (List.range length).foldl
            (fun raw i => raw ||| motBitAt start length data i <<< (length - 1 - i)) 0 := by
    unfold extractMotorola
    apply foldl_congr_mem
    intro x a ha
    have hal : a < length := List.mem_range.mp ha
    have hx : ((start : ℤ) - ((start : ℤ) - (length : ℤ) + 1 + (a : ℤ))).toNat
        = length - 1 - a := by omega
    simp only [hx, motBitAt]
  rw [hcongr, foldlOrShift (motBitAt start length data) (fun i => bigEndianBit_le_one _ _) length]

lemma standaloneExtractBits_eq_sum (start length : ℕ) (data : List ℕ) :
    standaloneExtractBits start length data
      = ∑ i ∈ Finset.range length, staBitAt start data i * 2 ^ (length - 1 - i) := by
  have hcongr :
      standaloneExtractBits start length data
        = (List.range length).foldl
            (fun raw i => raw ||| staBitAt start data i <<< (length - 1 - i)) 0 := by
    unfold standaloneExtractBits
    apply foldl_congr_mem
    intro x a _
    simp only [staBitAt]
  rw [hcongr, foldlOrShift (staBitAt start data) (fun i => bigEndianBit_le_one _ _) length]

/-- The claim's bit mapping, written from the specification's words: bit index
`b` maps to byte `b / 8` and bit-within-byte `7 - (b % 8)` of the payload, and
a bit position outside `[0, 63]` contributes 0 (short payloads read as
zero-padded, here through `getD`'s default). -/
def specMotorolaBit (data : List ℕ) (b : ℤ) : ℕ :=
  if 0 ≤ b ∧ b ≤ 63 then (data.getD (b / 8).toNat 0) >>> (7 - b % 8).toNat &&& 1
  else 0

/-- The raw value the claim describes: the bits at positions
`start - length + 1 .. start`, with the bit read at `start` the most
significant. -/
def specMotorolaMSB (start length : ℕ) (data : List ℕ) : ℕ :=
  ∑ i ∈ Finset.range length, specMotorolaBit data ((start : ℤ) - (i : ℤ)) * 2 ^ (length - 1 - i)

lemma padTo8_length_eight (data : List ℕ) (h : data.length = 8) : padTo8 data = data := by
  unfold padTo8
  rw [h]
  simp

lemma specMotorolaBit_eq_bigEndianBit (data : List ℕ) (h : data.length = 8) (b : ℤ) :
    specMotorolaBit data b = bigEndianBit (padTo8 data) b := by
  rw [padTo8_length_eight data h]
  unfold specMotorolaBit bigEndianBit
  simp only [h]
  split_ifs with h1 h2 h2
  · rfl
  · omega
  · omega
  · rfl

/-- C2 (amended): both cited extraction loops read exactly the bits at
positions `start - length + 1 .. start` under the claimed byte/bit mapping
(byte `b / 8`, bit-within-byte `7 - b % 8`, out-of-frame bits contributing 0).
The standalone logger's `extract_signal` places the bit read at `start_bit` as
the most significant bit, exactly as the claim states; `Signal._extract_motorola`
reads the same bits but with the significance reversed — the bit read at
`start_bit` lands in the least significant position. -/
theorem c2_amended (start length : ℕ) (data : List ℕ)
    (h1 : 1 ≤ length) (h2 : length ≤ 64) (h3 : data.length = 8) :
    standaloneExtractBits start length data = specMotorolaMSB start length data ∧
    extractMotorola start length data
      = ∑ i ∈ Finset.range length, specMotorolaBit data ((start : ℤ) - (i : ℤ)) * 2 ^ i := by
  constructor
  · rw [standaloneExtractBits_eq_sum]
    unfold specMotorolaMSB
    refine Finset.sum_congr rfl (fun i _ => ?_)
    rw [specMotorolaBit_eq_bigEndianBit data h3]
    rfl
  · rw [extractMotorola_eq_sum]
    have hrefl := Finset.sum_range_reflect
      (fun i => motBitAt start length data i * 2 ^ (length - 1 - i)) length
    rw [← hrefl]
    refine Finset.sum_congr rfl (fun j hj => ?_)
    have hjl : j < length := Finset.mem_range.mp hj
    have hexp : length - 1 - (length - 1 - j) = j := by omega
    have hpos : ((start : ℤ) - (length : ℤ) + 1 + ((length - 1 - j : ℕ) : ℤ))
        = (start : ℤ) - (j : ℤ) := by omega
    simp only [motBitAt, hexp, hpos]
    rw [specMotorolaBit_eq_bigEndianBit data h3]

/-- C2 witness: the amended characterisation applied to a concrete
descriptor and payload. -/
theorem c2_amended_witness :
    standaloneExtractBits 11 2 vec1 = specMotorolaMSB 11 2 vec1 ∧
    extractMotorola 11 2 vec1
      = ∑ i ∈ Finset.range 2, specMotorolaBit vec1 ((11 : ℤ) - (i : ℤ)) * 2 ^ i :=
  c2_amended 11 2 vec1 (by norm_num) (by norm_num) (by decide)

/-- C2 counterexample: for the descriptor `start_bit = 1, length = 2` on a
payload whose byte 0 is `0x80`, `Signal._extract_motorola` returns 2, while the
claim's formula (bit read at `start_bit` most significant) gives 1, so the
claim as stated is false of `Signal._extract_motorola`. -/
theorem c2_counterexample :
    extractMotorola 1 2 [0x80, 0, 0, 0, 0, 0, 0, 0] = 2 ∧
    specMotorolaMSB 1 2 [0x80, 0, 0, 0, 0, 0, 0, 0] = 1 := by
  decide

/- ===================================================================
   Signal decoding (Signal.decode, NamedSignalValue —
   src/message_watcher/can_embedded_logger.py)
   =================================================================== -/

/-- Checked variant of the guarded big-endian bit read: the list access inside
the guard is the real Python indexing `data_bytes[byte_index]`, which raises
(`none`) when out of bounds. -/
def bigEndianBitChecked (bytes : List ℕ) (bitPos : ℤ) : Option ℕ :=
  let byteIndex : ℤ := bitPos / 8
  let bitIndex : ℤ := 7 - bitPos % 8
  if 0 ≤ byteIndex ∧ byteIndex < (bytes.length : ℤ) ∧ 0 ≤ bitIndex ∧ bitIndex ≤ 7 then
    (bytes[byteIndex.toNat]?).map (fun b => b >>> bitIndex.toNat &&& 1)
  else some 0

/-- Checked variant of the guarded Intel bit read. -/
def littleEndianBitChecked (bytes : List ℕ) (bitPos : ℕ) : Option ℕ :=
  if bitPos / 8 < bytes.length ∧ bitPos % 8 ≤ 7 then
    (bytes[bitPos / 8]?).map (fun b => b >>> (bitPos % 8) &&& 1)
  else some 0

/-- `Signal._extract_motorola` with the real (fallible) list indexing. -/
def extractMotorolaChecked (start length : ℕ) (data : List ℕ) : Option ℕ :=
  let bytes := padTo8 data
  (List.range length).foldlM
    (fun (raw i : ℕ) =>
      let bitPos : ℤ := (start : ℤ) - (length : ℤ) + 1 + (i : ℤ)
      (bigEndianBitChecked bytes bitPos).map
        (fun b => raw ||| b <<< ((start : ℤ) - bitPos).toNat))
    0

/-- `Signal._extract_intel` with the real (fallible) list indexing. -/
def extractIntelChecked (start length : ℕ) (data : List ℕ) : Option ℕ :=
  let bytes := padTo8 data
  (List.range length).foldlM
    (fun (raw i : ℕ) =>
      (littleEndianBitChecked bytes (start + i)).map (fun b => raw ||| b <<< i))
    0

lemma bigEndianBitChecked_eq (bytes : List ℕ) (p : ℤ) :
    bigEndianBitChecked bytes p = some (bigEndianBit bytes p) := by
  unfold bigEndianBitChecked bigEndianBit
  simp only []
  split_ifs with h
  · have hlt : (p / 8).toNat < bytes.length := by omega
    rw [List.getElem?_eq_getElem hlt]
    simp [List.getD_eq_getElem?_getD, List.getElem?_eq_getElem hlt]
  · rfl

lemma littleEndianBitChecked_eq (bytes : List ℕ) (p : ℕ) :
    littleEndianBitChecked bytes p = some (littleEndianBit bytes p) := by
  unfold littleEndianBitChecked littleEndianBit
  simp only []
  split_ifs with h
  · have hlt : p / 8 < bytes.length := h.1
    rw [List.getElem?_eq_getElem hlt]
    simp [List.getD_eq_getElem?_getD, List.getElem?_eq_getElem hlt]
  · rfl

lemma foldlM_option_eq {α β : Type} (l : List α) (g : β → α → Option β) (f : β → α → β)
    (H : ∀ x : β, ∀ a ∈ l, g x a = some (f x a)) :
    ∀ b : β, l.foldlM g b = some (l.foldl f b) := by
  induction l with
  | nil => intro b; rfl
  | cons a t ih =>
      intro b
      rw [List.foldlM_cons, H b a (by simp)]
      simp only [Option.bind_eq_bind, Option.some_bind, List.foldl_cons]
      exact ih (fun x c hc => H x c (by simp [hc])) _

lemma extractMotorolaChecked_eq (start length : ℕ) (data : List ℕ) :
    extractMotorolaChecked start length data = some (extractMotorola start length data) := by
  unfold extractMotorolaChecked extractMotorola
  apply foldlM_option_eq
  intro x a _
  simp only [bigEndianBitChecked_eq, Option.map_some']

lemma extractIntelChecked_eq (start length : ℕ) (data : List ℕ) :
    extractIntelChecked start length data = some (extractIntel start length data) := by
  unfold extractIntelChecked extractIntel
  apply foldlM_option_eq
  intro x a _
  simp only [littleEndianBitChecked_eq, Option.map_some']

/-- Byte order of a signal, `'big_endian'`/`'little_endian'` in the source. -/
inductive ByteOrder where
  | bigEndian
  | littleEndian
deriving DecidableEq

/-- The `Signal` class of src/message_watcher/can_embedded_logger.py.
`choices` is the `{value: name}` enum dict, as an association list. -/
structure Signal where
  name : String
  start : ℕ
  length : ℕ
  byteOrder : ByteOrder
  isSigned : Bool
  scale : ℚ
  offset : ℚ
  minimum : ℚ
  maximum : ℚ
  unit : String
  choices : List (ℤ × String)
deriving DecidableEq

/-- Result of `Signal.decode`: a plain scaled number, or a
`NamedSignalValue(value, name)` whose `value` field is `int(value)` of the
argument passed to the constructor. -/
inductive DecodedValue where
  | numeric (v : ℚ)
  | named (value : ℤ) (label : String)
deriving DecidableEq

/-- Dict lookup `self.choices[raw_value]` / `raw_value in self.choices`. -/
def lookupChoice (choices : List (ℤ × String)) (k : ℤ) : Option String :=
  (choices.find? (fun c => c.1 == k)).map (fun c => c.2)

/-- Python `int()` applied to a float/ratio: truncation toward zero. -/
def pyTrunc (q : ℚ) : ℤ :=
  if 0 ≤ q then ⌊q⌋ else ⌈q⌉

/-- `Signal.decode` (src/message_watcher/can_embedded_logger.py): extract raw
bits by byte order, sign-extend when `is_signed and length > 0` and the top bit
of the field is set, scale, then return `NamedSignalValue(scaled_value, name)`
when `self.choices and raw_value in self.choices`, else the scaled value.
The surrounding `try/except` returns Python `None` if anything raises, which
the `Option` propagates. -/
def Signal.decode (s : Signal) (data : List ℕ) : Option DecodedValue :=
  match (match s.byteOrder with
         | ByteOrder.bigEndian => extractMotorolaChecked s.start s.length data
         | ByteOrder.littleEndian => extractIntelChecked s.start s.length data) with
  | none => none
  | some rawNat =>
    let raw : ℤ :=
      if s.isSigned = true ∧ 0 < s.length ∧ rawNat &&& 1 <<< (s.length - 1) ≠ 0 then
        (rawNat : ℤ) - ((1 <<< s.length : ℕ) : ℤ)
      else (rawNat : ℤ)
    let scaled : ℚ := (raw : ℚ) * s.scale + s.offset
    if h : s.choices ≠ [] ∧ (lookupChoice s.choices raw).isSome then
      some (DecodedValue.named (pyTrunc scaled) ((lookupChoice s.choices raw).get h.2))
    else
      some (DecodedValue.numeric scaled)

/-- The raw bit field of a signal, before sign handling. -/
def rawBits (s : Signal) (data : List ℕ) : ℕ :=
  match s.byteOrder with
  | ByteOrder.bigEndian => extractMotorola s.start s.length data
  | ByteOrder.littleEndian => extractIntel s.start s.length data

/-- The claim's sign handling: two's-complement sign extension exactly when the
descriptor is signed and the top bit of the `length`-bit field is set. -/
def signedRaw (s : Signal) (data : List ℕ) : ℤ :=
  if s.isSigned = true ∧ 0 < s.length ∧ (rawBits s data).testBit (s.length - 1) then
    (rawBits s data : ℤ) - 2 ^ s.length
  else (rawBits s data : ℤ)

/-- The claim's physical value: `raw * scale + offset`. -/
def physicalValue (s : Signal) (data : List ℕ) : ℚ :=
  (signedRaw s data : ℚ) * s.scale + s.offset

lemma and_one_shiftLeft_ne_zero (x k : ℕ) :
    (x &&& 1 <<< k ≠ 0) ↔ x.testBit k = true := by
  rw [Nat.one_shiftLeft, Nat.and_two_pow]
  cases h : x.testBit k <;> simp [h, (Nat.two_pow_pos k).ne']

lemma lookupChoice_nil (k : ℤ) : lookupChoice [] k = none := rfl

lemma signalDecode_eq (s : Signal) (data : List ℕ) :
    Signal.decode s data
      = some (match lookupChoice s.choices (signedRaw s data) with
              | some label => DecodedValue.named (pyTrunc (physicalValue s data)) label
              | none => DecodedValue.numeric (physicalValue s data)) := by
  unfold Signal.decode
  have hraw :
      (match s.byteOrder with
       | ByteOrder.bigEndian => extractMotorolaChecked s.start s.length data
       | ByteOrder.littleEndian => extractIntelChecked s.start s.length data)
        = some (rawBits s data) := by
    unfold rawBits
    cases s.byteOrder
    · exact extractMotorolaChecked_eq _ _ _
    · exact extractIntelChecked_eq _ _ _
  rw [hraw]
  simp only []
  have hcond :
      (s.isSigned = true ∧ 0 < s.length ∧ rawBits s data &&& 1 <<< (s.length - 1) ≠ 0)
        ↔ (s.isSigned = true ∧ 0 < s.length ∧ (rawBits s data).testBit (s.length - 1) = true) := by
    rw [and_one_shiftLeft_ne_zero]
  have hsigned :
      (if s.isSigned = true ∧ 0 < s.length ∧ rawBits s data &&& 1 <<< (s.length - 1) ≠ 0 then
        ((rawBits s data : ℕ) : ℤ) - ((1 <<< s.length : ℕ) : ℤ)
      else ((rawBits s data : ℕ) : ℤ)) = signedRaw s data := by
    unfold signedRaw
    rw [if_congr hcond rfl rfl]
    split_ifs with h
    · rw [Nat.one_shiftLeft]
      push_cast
      ring
    · rfl
  simp only [hsigned]
  by_cases h : s.choices ≠ [] ∧ (lookupChoice s.choices (signedRaw s data)).isSome = true
  · rw [dif_pos h]
    obtain ⟨label, hl⟩ := Option.isSome_iff_exists.mp h.2
    unfold physicalValue
    simp only [hl, Option.get_some]
  · rw [dif_neg h]
    have hl : lookupChoice s.choices (signedRaw s data) = none := by
      by_cases hc : s.choices = []
      · rw [hc, lookupChoice_nil]
      · push_neg at h
        exact Option.not_isSome_iff_eq_none.mp (by simpa using h hc)
    unfold physicalValue
    rw [hl]

/-- C7 (amended): `Signal.decode` extracts the raw field, sign-extends by
`raw -= 1 << length` exactly when the descriptor is signed and the top bit of
the `length`-bit field is set, computes `physical = raw * scale + offset`, and
returns `Named{int(physical), label}` when the value table contains the
(sign-extended) raw value, else `Numeric(physical)`. The value carried inside
the Named result is the truncated physical value `int(raw * scale + offset)`,
not the raw integer; the two agree only when `scale = 1` and `offset = 0`. -/
theorem c7_amended (s : Signal) (data : List ℕ) :
    Signal.decode s data
      = some (match lookupChoice s.choices (signedRaw s data) with
              | some label => DecodedValue.named (pyTrunc (physicalValue s data)) label
              | none => DecodedValue.numeric (physicalValue s data)) :=
  signalDecode_eq s data

/-- Descriptor witnessing that the Named value is the scaled value:
unsigned Motorola field covering all of byte 0, `scale = 2`, value table
`{1: "ONE"}`. -/
def sigScaled : Signal :=
  { name := "S", start := 7, length := 8, byteOrder := ByteOrder.bigEndian,
    isSigned := false, scale := 2, offset := 0, minimum := 0, maximum := 0,
    unit := "", choices := [(1, "ONE")] }

/-- C7 counterexample: with `sigScaled` on a payload whose raw field decodes
to 1, the value table contains raw = 1, yet the decoded result carries
`int(1 * 2 + 0) = 2`, not the raw 1 the claim states. -/
theorem c7_counterexample :
    Signal.decode sigScaled [1, 0, 0, 0, 0, 0, 0, 0] = some (DecodedValue.named 2 "ONE") ∧
    rawBits sigScaled [1, 0, 0, 0, 0, 0, 0, 0] = 1 := by
  have hraw : extractMotorolaChecked 7 8 [1, 0, 0, 0, 0, 0, 0, 0] = some 1 := by decide
  constructor
  · unfold Signal.decode sigScaled
    simp only []
    rw [hraw]
    simp only []
    norm_num [lookupChoice, pyTrunc]
  · unfold rawBits sigScaled
    simp only []
    decide

/- ===================================================================
   C8: totality of decoding
   =================================================================== -/

lemma padTo8_idem (data : List ℕ) : padTo8 (padTo8 data) = padTo8 data := by
  unfold padTo8
  have h : 8 - ((data ++ List.replicate (8 - data.length) 0).length) = 0 := by
    simp only [List.length_append, List.length_replicate]
    omega
  rw [h]
  simp

/-- C8 (amended): `Signal.decode` of the embedded logger is total — the guarded
extraction never takes the exception path — for every descriptor and payload;
any bit position outside `[0, 63]` contributes 0 for an 8-byte payload, and
short payloads behave exactly as their zero-padded extension. The experiments
`extract_signal_value`, however, is total only for descriptors with
`start_bit + 1 >= length`: below that its shift count is negative and Python
raises ValueError (see the counterexample). -/
theorem c8_amended :
    (∀ (s : Signal) (data : List ℕ), 1 ≤ s.length → s.length ≤ 64 →
        (Signal.decode s data).isSome = true) ∧
    (∀ (data : List ℕ) (p : ℤ), data.length = 8 → (p < 0 ∨ 63 < p) →
        bigEndianBit (padTo8 data) p = 0) ∧
    (∀ (start length : ℕ) (data : List ℕ),
        extractMotorola start length data = extractMotorola start length (padTo8 data) ∧
        extractIntel start length data = extractIntel start length (padTo8 data)) ∧
    (∀ (data : List ℕ) (start length : ℕ), length ≤ start + 1 →
        (extractSignalValue data start length).isSome = true) := by
  refine ⟨?_, ?_, ?_, ?_⟩
  · intro s data _ _
    rw [signalDecode_eq]
    rfl
  · intro data p hlen hp
    rw [padTo8_length_eight data hlen]
    unfold bigEndianBit
    simp only [hlen]
    rw [if_neg]
    omega
  · intro start length data
    constructor
    · unfold extractMotorola
      rw [padTo8_idem]
    · unfold extractIntel
      rw [padTo8_idem]
  · intro data start length h
    unfold extractSignalValue
    simp only []
    rw [if_neg (by omega)]
    rfl

/-- C8 witness: the totality statements applied at concrete descriptors,
payloads and bit positions. -/
theorem c8_amended_witness :
    (Signal.decode sigScaled vec1).isSome = true ∧
    bigEndianBit (padTo8 vec1) 64 = 0 ∧
    extractMotorola 11 2 [0x00, 0x08] = extractMotorola 11 2 (padTo8 [0x00, 0x08]) ∧
    (extractSignalValue vec1 11 2).isSome = true :=
  ⟨c8_amended.1 sigScaled vec1 (by norm_num [sigScaled]) (by norm_num [sigScaled]),
   c8_amended.2.1 vec1 64 (by decide) (Or.inr (by norm_num)),
   (c8_amended.2.2.1 11 2 [0x00, 0x08]).1,
   c8_amended.2.2.2 vec1 11 2 (by norm_num)⟩

/-- C8 counterexample: a descriptor with `start_bit = 0, length = 2` (length
within the claim's `1..64` range) makes `extract_signal_value` shift by the
negative amount `-1`, which raises ValueError in Python — decoding by this
cited extractor is not total over all descriptors. -/
theorem c8_counterexample :
    extractSignalValue [0, 0, 0, 0, 0, 0, 0, 0] 0 2 = none := by
  decide

/- ===================================================================
   Capture analysis (src/can_analyzer/can_action_analyzer.py)
   =================================================================== -/

/-- One entry of the `toggle_events` list built by the experiments analyzer's
binary-toggle capture: `{timestamp, from_state, to_state, toggle_number}`. -/
structure ToggleEvent where
  timestamp : ℚ
  from_state : String
  to_state : String
  toggle_number : ℕ
deriving DecidableEq

/-- A captured CAN message as the analyzer holds it: the seven frame fields,
plus the duck-typed metadata attributes that the capture code sets only on the
synthetic first message (`hasattr` becomes `Option.isSome`). -/
structure CANMsg where
  timestamp : ℚ
  arbitration_id : ℕ
  dlc : ℕ
  data : List ℕ
  is_extended_id : Bool
  is_remote_frame : Bool
  is_error_frame : Bool
  action_timestamps : Option (List ℚ) := none
  toggle_events : Option (List ToggleEvent) := none
  initial_state : Option String := none
  toggled_state : Option String := none
  capture_type : Option String := none
deriving DecidableEq

/-- `compare_captures`' metadata stripping: when the action capture is nonempty
and its first message carries `action_timestamps`, take them and drop that
message. -/
def stripMeta (msgs : List CANMsg) : List ℚ × List CANMsg :=
  match msgs with
  | [] => ([], [])
  | m :: rest =>
      match m.action_timestamps with
      | some ts => (ts, rest)
      | none => ([], m :: rest)

/-- The frequency denominator `msgs[-1].timestamp if msgs else 1`. -/
def duration (msgs : List CANMsg) : ℚ :=
  match msgs.getLast? with
  | some m => m.timestamp
  | none => 1

/-- `xxx_by_id[msg_id]`: the messages of a capture with one arbitration id. -/
def msgsOfId (msgs : List CANMsg) (i : ℕ) : List CANMsg :=
  msgs.filter (fun m => m.arbitration_id == i)

/-- `set(bytes(msg.data) for msg in ...)`. -/
def payloadSet (msgs : List CANMsg) : Finset (List ℕ) :=
  (msgs.map (fun m => m.data)).toFinset

/-- `freq_change_pct`: a rational, or the `float('inf')` the code assigns when
`base_freq > 0` fails. -/
inductive FreqPct where
  | val (q : ℚ)
  | inf
deriving DecidableEq

/-- `abs(freq_change_pct) > c`, with `abs(inf) > c` true. -/
def FreqPct.absGt (p : FreqPct) (c : ℚ) : Bool :=
  match p with
  | FreqPct.val q => decide (c < |q|)
  | FreqPct.inf => true

/-- `freq_change_pct = (freq_change / base_freq * 100) if base_freq > 0 else
float('inf')`. -/
def freqChangePct (baseFreq actionFreq : ℚ) : FreqPct :=
  if 0 < baseFreq then FreqPct.val ((actionFreq - baseFreq) / baseFreq * 100)
  else FreqPct.inf

/-- The per-id entry `compare_captures` stores in `differences`. -/
structure DiffEntry where
  is_new : Bool
  base_count : ℕ
  action_count : ℕ
  freq_change_pct : FreqPct
  new_payloads : Finset (List ℕ)
  baseline_payloads : Finset (List ℕ)
  action_payloads : Finset (List ℕ)
  action_correlated : Bool
deriving DecidableEq

/-- The action-correlation check of `compare_captures`. The Python guard is
`action_timestamps and len(action_timestamps) > 1 and msg_id in action_by_id`;
by the time it runs, `len(action_by_id[msg_id])` has already been evaluated and
a defaultdict lookup inserts the key, so the membership test is always true and
the guard reduces to `len(action_timestamps) > 1`. -/
def actionCorrelated (actionTs : List ℚ) (aMsgs : List CANMsg) : Bool :=
  if 1 < actionTs.length then
    let msgTs := aMsgs.map (fun m => m.timestamp)
    let correlationCount :=
      (actionTs.filter (fun t => msgTs.any (fun mt => decide (|mt - t| < 1)))).length
    decide ((actionTs.length : ℚ) * (1 / 2) ≤ (correlationCount : ℚ))
  else false

/-- The body of `compare_captures`' per-id loop, after the two frequency
divisions have succeeded. -/
def diffEntry (actionMsgs baselineMsgs : List CANMsg) (actionTs : List ℚ) (i : ℕ) :
    DiffEntry :=
  let bMsgs := msgsOfId baselineMsgs i
  let aMsgs := msgsOfId actionMsgs i
  let baseCount := bMsgs.length
  let actionCount := aMsgs.length
  let baseFreq : ℚ := (baseCount : ℚ) / duration baselineMsgs
  let actionFreq : ℚ := (actionCount : ℚ) / duration actionMsgs
  let uniqueBase := payloadSet bMsgs
  let uniqueAction := payloadSet aMsgs
  { is_new := decide (baseCount = 0 ∧ 0 < actionCount)
    base_count := baseCount
    action_count := actionCount
    freq_change_pct := freqChangePct baseFreq actionFreq
    new_payloads := uniqueAction \ uniqueBase
    baseline_payloads := uniqueBase
    action_payloads := uniqueAction
    action_correlated := actionCorrelated actionTs aMsgs }

/-- `all_ids = set(action_by_id.keys()) | set(baseline_by_id.keys())`. -/
def allIds (actionMsgs baselineMsgs : List CANMsg) : List ℕ :=
  ((actionMsgs.map (fun m => m.arbitration_id))
    ++ (baselineMsgs.map (fun m => m.arbitration_id))).dedup

/-- `if is_new or has_freq_change or new_payloads`. -/
def includeEntry (e : DiffEntry) : Bool :=
  e.is_new || e.freq_change_pct.absGt 20 || decide (e.new_payloads ≠ ∅)

/-- `CANActionAnalyzer.compare_captures`. The frequency divisions run on every
loop iteration, so when any id exists and a nonempty capture's last timestamp
is 0, Python raises ZeroDivisionError on the first iteration (`none`). -/
def compareCaptures (actionCap baselineCap : List CANMsg) :
    Option (List (ℕ × DiffEntry)) :=
  let p := stripMeta actionCap
  let actionTs := p.1
  let actionMsgs := p.2
  let ids := allIds actionMsgs baselineCap
  if ids = [] then some []
  else if duration baselineCap = 0 ∨ duration actionMsgs = 0 then none
  else some (ids.filterMap (fun i =>
    let e := diffEntry actionMsgs baselineCap actionTs i
    if includeEntry e then some (i, e) else none))

lemma duration_nil : duration [] = 1 := rfl

lemma duration_one (m : CANMsg) : duration [m] = m.timestamp := rfl

lemma duration_two (m1 m2 : CANMsg) : duration [m1, m2] = m2.timestamp := rfl

/-- C3 (amended): `compare_captures` is guarded against division by zero only
through the empty-capture fallback (`duration = 1`); whenever each frequency
denominator is nonzero — in particular whenever each nonempty capture's last
frame has a nonzero timestamp, the empty capture contributing the fallback 1 —
the comparison completes without ZeroDivisionError. A single-frame capture
whose frame has timestamp 0 still divides by zero (see the counterexample). -/
theorem c3_amended (actionCap baselineCap : List CANMsg)
    (hb : duration baselineCap ≠ 0)
    (ha : duration (stripMeta actionCap).2 ≠ 0) :
    (compareCaptures actionCap baselineCap).isSome = true := by
  unfold compareCaptures
  simp only []
  split_ifs with h1 h2
  · rfl
  · rcases h2 with h2 | h2
    · exact absurd h2 hb
    · exact absurd h2 ha
  · rfl

/-- A capture holding one frame whose (relative) timestamp is 0. -/
def frameAtZero : CANMsg :=
  { timestamp := 0, arbitration_id := 1, dlc := 1, data := [0],
    is_extended_id := false, is_remote_frame := false, is_error_frame := false }

/-- C3 counterexample: comparing an empty action capture against a baseline
containing the single frame `frameAtZero` divides `base_count` by the last
timestamp 0 — ZeroDivisionError — although one capture is empty and the other
has a single frame, exactly the situation the claim says is safe. -/
theorem c3_counterexample : compareCaptures [] [frameAtZero] = none := by
  have hids : allIds (stripMeta ([] : List CANMsg)).2 [frameAtZero] = [1] := by
    simp [stripMeta, allIds, frameAtZero]
  unfold compareCaptures
  simp only [hids, duration_one]
  norm_num [stripMeta, frameAtZero]

/-- A one-frame baseline at timestamp 1. -/
def capBaseOne : List CANMsg :=
  [{ timestamp := 1, arbitration_id := 1, dlc := 1, data := [0],
     is_extended_id := false, is_remote_frame := false, is_error_frame := false }]

/-- C3 witness: the no-division guarantee applied to the one-frame baseline
`capBaseOne` (duration 1) against an empty action capture (fallback 1). -/
theorem c3_amended_witness : (compareCaptures [] capBaseOne).isSome = true :=
  c3_amended [] capBaseOne (by norm_num [capBaseOne, duration_one]) (by
    norm_num [stripMeta, duration_nil])

lemma mem_allIds {A B : List CANMsg} {i : ℕ} :
    i ∈ allIds A B ↔
      ((∃ m ∈ A, m.arbitration_id = i) ∨ (∃ m ∈ B, m.arbitration_id = i)) := by
  unfold allIds
  simp [List.mem_dedup]

lemma msgsOfId_ne_nil {msgs : List CANMsg} {i : ℕ} :
    msgsOfId msgs i ≠ [] ↔ ∃ m ∈ msgs, m.arbitration_id = i := by
  unfold msgsOfId
  rw [Ne, List.filter_eq_nil_iff]
  push_neg
  simp

lemma includeEntry_diffEntry (A B : List CANMsg) (ts : List ℚ) (i : ℕ) :
    includeEntry (diffEntry A B ts i) = true ↔
      (((msgsOfId B i).length = 0 ∧ 0 < (msgsOfId A i).length) ∨
       (freqChangePct (((msgsOfId B i).length : ℚ) / duration B)
          (((msgsOfId A i).length : ℚ) / duration A)).absGt 20 = true ∨
       payloadSet (msgsOfId A i) \ payloadSet (msgsOfId B i) ≠ ∅) := by
  unfold includeEntry diffEntry
  simp [Bool.or_eq_true, decide_eq_true_eq]
  tauto

/-- C4 (amended): an id appears in `compare_captures`' result set iff it occurs
in either capture and `is_new OR |freq_change_pct| > 20 OR new_payloads ≠ ∅` —
exactly as the claim states. The claim's rider that an id with identical frame
distributions in both captures is absent holds provided the two captures also
have equal (positive) durations; when the durations differ, such an id can
still be reported through the frequency term (see the counterexample). -/
theorem c4_amended (actionCap baselineCap : List CANMsg) (res : List (ℕ × DiffEntry))
    (h : compareCaptures actionCap baselineCap = some res) (i : ℕ) :
    ((∃ e, (i, e) ∈ res) ↔
      (i ∈ allIds (stripMeta actionCap).2 baselineCap ∧
        (((msgsOfId baselineCap i).length = 0 ∧
            0 < (msgsOfId (stripMeta actionCap).2 i).length) ∨
         (freqChangePct (((msgsOfId baselineCap i).length : ℚ) / duration baselineCap)
            (((msgsOfId (stripMeta actionCap).2 i).length : ℚ)
              / duration (stripMeta actionCap).2)).absGt 20 = true ∨
         payloadSet (msgsOfId (stripMeta actionCap).2 i)
            \ payloadSet (msgsOfId baselineCap i) ≠ ∅))) ∧
    ((msgsOfId (stripMeta actionCap).2 i = msgsOfId baselineCap i ∧
        duration (stripMeta actionCap).2 = duration baselineCap ∧
        0 < duration baselineCap) →
      ¬ ∃ e, (i, e) ∈ res) := by
  unfold compareCaptures at h
  simp only [] at h
  by_cases hids : allIds (stripMeta actionCap).2 baselineCap = []
  · rw [if_pos hids] at h
    injection h with h'
    subst h'
    refine ⟨⟨?_, ?_⟩, ?_⟩
    · rintro ⟨e, he⟩
      exact absurd he (List.not_mem_nil _)
    · rintro ⟨hmem, -⟩
      rw [hids] at hmem
      exact absurd hmem (List.not_mem_nil _)
    · rintro - ⟨e, he⟩
      exact absurd he (List.not_mem_nil _)
  · rw [if_neg hids] at h
    by_cases hdur : duration baselineCap = 0 ∨ duration (stripMeta actionCap).2 = 0
    · rw [if_pos hdur] at h
      exact absurd h (by simp)
    · rw [if_neg hdur] at h
      injection h with h'
      subst h'
      have hmain : (∃ e, (i, e) ∈
            (allIds (stripMeta actionCap).2 baselineCap).filterMap (fun j =>
              if includeEntry (diffEntry (stripMeta actionCap).2 baselineCap
                  (stripMeta actionCap).1 j) then
                some (j, diffEntry (stripMeta actionCap).2 baselineCap
                  (stripMeta actionCap).1 j)
              else none)) ↔
          (i ∈ allIds (stripMeta actionCap).2 baselineCap ∧
            includeEntry (diffEntry (stripMeta actionCap).2 baselineCap
              (stripMeta actionCap).1 i) = true) := by
        constructor
        · rintro ⟨e, he⟩
          rw [List.mem_filterMap] at he
          obtain ⟨a, ha, hfa⟩ := he
          by_cases hinc : includeEntry (diffEntry (stripMeta actionCap).2 baselineCap
              (stripMeta actionCap).1 a) = true
          · rw [if_pos hinc] at hfa
            injection hfa with hp
            have ha1 : a = i := congrArg Prod.fst hp
            subst ha1
            exact ⟨ha, hinc⟩
          · rw [if_neg hinc] at hfa
            exact absurd hfa (by simp)
        · rintro ⟨hmem, hinc⟩
          exact ⟨_, List.mem_filterMap.mpr ⟨i, hmem, by rw [if_pos hinc]⟩⟩
      refine ⟨by rw [hmain, includeEntry_diffEntry], ?_⟩
      rintro ⟨hEq, hDur, hPos⟩ hex
      obtain ⟨hmem, hinc⟩ := hmain.mp hex
      have hne : msgsOfId baselineCap i ≠ [] := by
        rcases mem_allIds.mp hmem with hA' | hB'
        · have := msgsOfId_ne_nil.mpr hA'
          rw [hEq] at this
          exact this
        · exact msgsOfId_ne_nil.mpr hB'
      have hlenB : 0 < (msgsOfId baselineCap i).length := List.length_pos.mpr hne
      rw [includeEntry_diffEntry] at hinc
      rcases hinc with ⟨hz, -⟩ | hpct | hnew
      · omega
      · rw [hEq, hDur] at hpct
        have hx : (0 : ℚ) < ((msgsOfId baselineCap i).length : ℚ) / duration baselineCap :=
          div_pos (by exact_mod_cast hlenB) hPos
        unfold freqChangePct at hpct
        rw [if_pos hx] at hpct
        simp only [FreqPct.absGt, sub_self, zero_div, zero_mul, abs_zero,
          decide_eq_true_eq] at hpct
        exact absurd hpct (by norm_num)
      · rw [hEq] at hnew
        exact hnew (by simp)

/-- Baseline for the C4 counterexample: one frame of id 1 at t = 1. -/
def c4Baseline : List CANMsg :=
  [{ timestamp := 1, arbitration_id := 1, dlc := 1, data := [0],
     is_extended_id := false, is_remote_frame := false, is_error_frame := false }]

/-- Action capture for the C4 counterexample: the identical id-1 frame, plus an
id-2 frame at t = 10 that stretches the capture's duration. -/
def c4Action : List CANMsg :=
  [{ timestamp := 1, arbitration_id := 1, dlc := 1, data := [0],
     is_extended_id := false, is_remote_frame := false, is_error_frame := false },
   { timestamp := 10, arbitration_id := 2, dlc := 1, data := [1],
     is_extended_id := false, is_remote_frame := false, is_error_frame := false }]

/-- C4 counterexample: id 1 has identical frames in both captures, yet the
comparison reports it — its frequency falls from 1/1 to 1/10 (−90%) because
the action capture's duration is stretched by the id-2 frame. -/
theorem c4_counterexample :
    msgsOfId (stripMeta c4Action).2 1 = msgsOfId c4Baseline 1 ∧
    ∃ res, compareCaptures c4Action c4Baseline = some res ∧ 1 ∈ res.map Prod.fst := by
  have hstrip : stripMeta c4Action = ([], c4Action) := rfl
  have hsame : msgsOfId (stripMeta c4Action).2 1 = msgsOfId c4Baseline 1 := by
    rw [hstrip]
    simp [msgsOfId, c4Action, c4Baseline]
  have hids : allIds (stripMeta c4Action).2 c4Baseline = [2, 1] := by
    rw [hstrip]
    simp [allIds, c4Action, c4Baseline, List.dedup_cons_of_mem, List.dedup_cons_of_not_mem]
  have hdb : duration c4Baseline = 1 := rfl
  have hda : duration c4Action = 10 := rfl
  have hinc : includeEntry (diffEntry (stripMeta c4Action).2 c4Baseline
      (stripMeta c4Action).1 1) = true := by
    rw [includeEntry_diffEntry]
    refine Or.inr (Or.inl ?_)
    rw [hstrip]
    have hlb : (msgsOfId c4Baseline 1).length = 1 := by
      simp [msgsOfId, c4Baseline]
    have hla : (msgsOfId c4Action 1).length = 1 := by
      simp [msgsOfId, c4Action]
    rw [hlb, hla, hdb, hda]
    unfold freqChangePct FreqPct.absGt
    rw [if_pos (by norm_num)]
    rw [decide_eq_true_eq]
    norm_num
  refine ⟨hsame,
    (allIds (stripMeta c4Action).2 c4Baseline).filterMap (fun i =>
      if includeEntry (diffEntry (stripMeta c4Action).2 c4Baseline
          (stripMeta c4Action).1 i) then
        some (i, diffEntry (stripMeta c4Action).2 c4Baseline (stripMeta c4Action).1 i)
      else none), ?_, ?_⟩
  · unfold compareCaptures
    simp only []
    rw [if_neg (by rw [hids]; simp), if_neg (by rw [hstrip]; rw [hdb, hda]; norm_num)]
  · rw [hids]
    refine List.mem_map.mpr ⟨(1, diffEntry (stripMeta c4Action).2 c4Baseline
      (stripMeta c4Action).1 1), ?_, rfl⟩
    exact List.mem_filterMap.mpr ⟨1, by simp, by rw [if_pos hinc]⟩

/-- C4 witness: the membership characterisation applied to a pair of empty
captures (where `compare_captures` returns an empty result). -/
theorem c4_amended_witness :
    ((∃ e, (1, e) ∈ ([] : List (ℕ × DiffEntry))) ↔
      (1 ∈ allIds (stripMeta ([] : List CANMsg)).2 [] ∧
        (((msgsOfId [] 1).length = 0 ∧
            0 < (msgsOfId (stripMeta ([] : List CANMsg)).2 1).length) ∨
         (freqChangePct (((msgsOfId [] 1).length : ℚ) / duration [])
            (((msgsOfId (stripMeta ([] : List CANMsg)).2 1).length : ℚ)
              / duration (stripMeta ([] : List CANMsg)).2)).absGt 20 = true ∨
         payloadSet (msgsOfId (stripMeta ([] : List CANMsg)).2 1)
            \ payloadSet (msgsOfId [] 1) ≠ ∅))) ∧
    ((msgsOfId (stripMeta ([] : List CANMsg)).2 1 = msgsOfId [] 1 ∧
        duration (stripMeta ([] : List CANMsg)).2 = duration [] ∧
        0 < duration []) →
      ¬ ∃ e, (1, e) ∈ ([] : List (ℕ × DiffEntry))) :=
  c4_amended [] [] [] rfl 1

/- ===================================================================
   C5: confidence scoring (CANActionAnalyzer._calculate_confidence)
   =================================================================== -/

/-- `_calculate_confidence`: additive score from the diff entry, capped by
`min(score, 100)`. -/
def calculateConfidence (e : DiffEntry) : ℕ :=
  let s0 : ℕ := 0
  let s1 := if e.is_new then s0 + 70 else s0
  let s2 := if e.new_payloads ≠ ∅ then s1 + min (e.new_payloads.card * 10) 20 else s1
  let s3 :=
    if e.freq_change_pct.absGt 100 then s2 + 10
    else if e.freq_change_pct.absGt 50 then s2 + 5
    else s2
  let s4 := if e.action_correlated then s3 + 15 else s3
  min s4 100

/-- C5: the confidence score equals the clamp to [0, 100] of the additive sum
`70·is_new + min(10·|new_payloads|, 20) + (10 / 5 / 0 per freq band) +
15·action_correlated`; it is always at most 100 (and, being a natural number,
at least 0), and at least 70 whenever `is_new` holds. -/
theorem c5_confidence (e : DiffEntry) :
    calculateConfidence e
        = min ((if e.is_new then 70 else 0) + min (e.new_payloads.card * 10) 20 +
               (if e.freq_change_pct.absGt 100 then 10
                else if e.freq_change_pct.absGt 50 then 5 else 0) +
               (if e.action_correlated then 15 else 0)) 100 ∧
    calculateConfidence e ≤ 100 ∧
    (e.is_new = true → 70 ≤ calculateConfidence e) := by
  unfold calculateConfidence
  simp only []
  by_cases hp : e.new_payloads = ∅
  · simp only [hp, Finset.card_empty, ne_eq, not_true_eq_false, if_false]
    cases e.is_new <;> cases hb : e.freq_change_pct.absGt 100 <;>
      cases hb2 : e.freq_change_pct.absGt 50 <;> cases e.action_correlated <;>
      simp <;> omega
  · simp only [ne_eq, hp, not_false_eq_true, if_true]
    cases e.is_new <;> cases hb : e.freq_change_pct.absGt 100 <;>
      cases hb2 : e.freq_change_pct.absGt 50 <;> cases e.action_correlated <;>
      simp <;> omega

/-- A diff entry as produced for a brand-new message id. -/
def entryNew : DiffEntry :=
  { is_new := true, base_count := 0, action_count := 5,
    freq_change_pct := FreqPct.inf, new_payloads := {[1]},
    baseline_payloads := ∅, action_payloads := {[1]}, action_correlated := false }

/-- C5 witness: the scorer on `entryNew` — 70 (new) + 10 (one new payload) +
10 (infinite frequency change) = 90, and at least 70 since the id is new. -/
theorem c5_confidence_witness :
    calculateConfidence entryNew = 90 ∧ 70 ≤ calculateConfidence entryNew :=
  ⟨by decide, (c5_confidence entryNew).2.2 (by decide)⟩

/- ===================================================================
   C9: capture persistence (save_capture / load_capture)
   =================================================================== -/

/-- One serialized message dict, as written by `save_capture`: the seven frame
fields, plus the optional multi-action and binary-toggle metadata keys that are
emitted only when the corresponding attribute exists (the experiments analyzer
adds the toggle keys; src/can_analyzer handles `action_timestamps` only). -/
structure SavedMsg where
  timestamp : ℚ
  arbitration_id : ℕ
  dlc : ℕ
  data : List ℕ
  is_extended_id : Bool
  is_remote_frame : Bool
  is_error_frame : Bool
  action_timestamps : Option (List ℚ) := none
  toggle_events : Option (List ToggleEvent) := none
  initial_state : Option String := none
  toggled_state : Option String := none
  capture_type : Option String := none
deriving DecidableEq

/-- `save_capture`'s per-message serialization. -/
def saveCapture (msgs : List CANMsg) : List SavedMsg :=
  msgs.map (fun m =>
    { timestamp := m.timestamp, arbitration_id := m.arbitration_id, dlc := m.dlc,
      data := m.data, is_extended_id := m.is_extended_id,
      is_remote_frame := m.is_remote_frame, is_error_frame := m.is_error_frame,
      action_timestamps := m.action_timestamps, toggle_events := m.toggle_events,
      initial_state := m.initial_state, toggled_state := m.toggled_state,
      capture_type := m.capture_type })

/-- `bytes(msg_data['data'])`: fails (ValueError) unless every entry is a byte. -/
def bytesFromList (l : List ℕ) : Option (List ℕ) :=
  if l.all (fun b => decide (b < 256)) then some l else none

/-- `load_capture`'s per-message deserialization back into message objects. -/
def loadCapture (saved : List SavedMsg) : Option (List CANMsg) :=
  saved.mapM (fun d =>
    (bytesFromList d.data).map (fun bs =>
      { timestamp := d.timestamp, arbitration_id := d.arbitration_id, dlc := d.dlc,
        data := bs, is_extended_id := d.is_extended_id,
        is_remote_frame := d.is_remote_frame, is_error_frame := d.is_error_frame,
        action_timestamps := d.action_timestamps, toggle_events := d.toggle_events,
        initial_state := d.initial_state, toggled_state := d.toggled_state,
        capture_type := d.capture_type }))

/-- C9: serializing a capture with `save_capture` and deserializing it with
`load_capture` reproduces the capture exactly — every frame field and all
attached multi-action / toggle metadata — whenever the frames' payload bytes
are in range (they always are for real captures, whose `data` comes from
`bytes`). -/
theorem c9_round_trip (msgs : List CANMsg)
    (h : ∀ m ∈ msgs, ∀ b ∈ m.data, b < 256) :
    loadCapture (saveCapture msgs) = some msgs := by
  induction msgs with
  | nil => rfl
  | cons m t ih =>
      have hb : bytesFromList m.data = some m.data := by
        unfold bytesFromList
        rw [if_pos]
        simp only [List.all_eq_true, decide_eq_true_eq]
        exact fun b hbm => h m (by simp) b hbm
      have ht : loadCapture (saveCapture t) = some t :=
        ih (fun m' hm' b hbm => h m' (by simp [hm']) b hbm)
      unfold loadCapture saveCapture at ht ⊢
      simp only [List.map_cons, List.mapM_cons, hb, Option.map_some', ht,
        Option.bind_eq_bind, Option.some_bind]
      rfl

/-- A two-frame toggle capture with full metadata on its synthetic first frame. -/
def capToggleDemo : List CANMsg :=
  [{ timestamp := 0, arbitration_id := 0, dlc := 8,
     data := [0, 0, 0, 0, 0, 0, 0, 0],
     is_extended_id := false, is_remote_frame := false, is_error_frame := false,
     toggle_events := some [{ timestamp := 2, from_state := "unlocked",
                              to_state := "locked", toggle_number := 1 }],
     initial_state := some "unlocked", toggled_state := some "locked",
     capture_type := some "binary_toggle" },
   { timestamp := 1, arbitration_id := 0x331, dlc := 8,
     data := [0, 0, 0, 0, 16, 0, 0, 0],
     is_extended_id := false, is_remote_frame := false, is_error_frame := false }]

/-- C9 witness: the round trip applied to the concrete toggle capture. -/
theorem c9_round_trip_witness :
    loadCapture (saveCapture capToggleDemo) = some capToggleDemo :=
  c9_round_trip capToggleDemo (by decide)

/- ===================================================================
   Binary-toggle analysis
   (src/experiments/can_analyzer/can_action_analyzer.py,
    CANActionAnalyzer.analyze_binary_toggles)
   =================================================================== -/

/-- The per-id `(timestamp, payload)` timeline, sorted by timestamp as
`payload_timeline.sort(key=lambda x: x['timestamp'])` does (a stable sort). -/
def sortedTimeline (msgs : List CANMsg) : List (ℚ × List ℕ) :=
  (msgs.map (fun m => (m.timestamp, m.data))).mergeSort (fun x y => decide (x.1 ≤ y.1))

/-- One entry of `payload_changes`. -/
structure PayloadChange where
  timestamp : ℚ
  from_payload : List ℕ
  to_payload : List ℕ
deriving DecidableEq

/-- `payload_changes`: consecutive timeline pairs with differing payloads,
annotated with the later timestamp. -/
def payloadChanges : List (ℚ × List ℕ) → List PayloadChange
  | [] => []
  | [_] => []
  | a :: b :: rest =>
      (if a.2 ≠ b.2 then
        [{ timestamp := b.1, from_payload := a.2, to_payload := b.2 }]
      else []) ++ payloadChanges (b :: rest)

/-- `unique_payloads`: the set built by adding, for each detected change, its
`prev_payload` and `curr_payload` — not the payloads of all frames. -/
def uniquePayloads (tl : List (ℚ × List ℕ)) : Finset (List ℕ) :=
  ((payloadChanges tl).flatMap (fun c => [c.from_payload, c.to_payload])).toFinset

/-- The first payload change within the ±2.0 s window of a toggle event
(the inner loop of the correlation scan, which `break`s at the first match). -/
def matchedChange (changes : List PayloadChange) (e : ToggleEvent) : Option PayloadChange :=
  changes.find? (fun c => decide (|c.timestamp - e.timestamp| ≤ 2))

/-- `correlated_changes`: the number of toggle events with a matched change. -/
def correlatedChanges (events : List ToggleEvent) (changes : List PayloadChange) : ℕ :=
  (events.filter (fun e => (matchedChange changes e).isSome)).length

/-- `correlation_ratio = correlated_changes / len(toggle_events) if
toggle_events else 0`. -/
def correlationRatio (events : List ToggleEvent) (corr : ℕ) : ℚ :=
  if events ≠ [] then (corr : ℚ) / (events.length : ℚ) else 0

/-- `is_binary_toggle = (len(unique_payloads) == 2) and
(correlation_ratio >= 0.6)`. -/
def isBinaryToggle (events : List ToggleEvent) (msgs : List CANMsg) : Bool :=
  let tl := sortedTimeline msgs
  let changes := payloadChanges tl
  let corr := correlatedChanges events changes
  if (uniquePayloads tl).card = 2 then
    decide ((3 / 5 : ℚ) ≤ correlationRatio events corr)
  else false

/-- `binary_confidence = min(correlation_ratio * 100, 100)` when classified,
otherwise its initial value 0. -/
def binaryConfidence (events : List ToggleEvent) (msgs : List CANMsg) : ℚ :=
  if isBinaryToggle events msgs then
    min (correlationRatio events
          (correlatedChanges events (payloadChanges (sortedTimeline msgs))) * 100) 100
  else 0

lemma payloadChanges_cons_cons (a b : ℚ × List ℕ) (rest : List (ℚ × List ℕ)) :
    payloadChanges (a :: b :: rest)
      = (if a.2 ≠ b.2 then
          [{ timestamp := b.1, from_payload := a.2, to_payload := b.2 }]
        else []) ++ payloadChanges (b :: rest) := rfl

lemma payloadChanges_mem {tl : List (ℚ × List ℕ)} {c : PayloadChange}
    (hc : c ∈ payloadChanges tl) :
    c.from_payload ≠ c.to_payload ∧
    (∃ x ∈ tl, x.2 = c.from_payload) ∧ (∃ y ∈ tl, y.2 = c.to_payload) := by
  induction tl with
  | nil => simp [payloadChanges] at hc
  | cons a tail ih =>
      cases tail with
      | nil => simp [payloadChanges] at hc
      | cons b rest =>
          rw [payloadChanges_cons_cons, List.mem_append] at hc
          rcases hc with hc | hc
          · by_cases hab : a.2 = b.2
            · rw [if_neg (not_ne_iff.mpr hab)] at hc
              simp at hc
            · rw [if_pos hab] at hc
              rw [List.mem_singleton] at hc
              subst hc
              exact ⟨hab, ⟨a, by simp, rfl⟩, ⟨b, by simp, rfl⟩⟩
          · obtain ⟨hne, ⟨x, hx, hx2⟩, ⟨y, hy, hy2⟩⟩ := ih hc
            exact ⟨hne, ⟨x, by simp [List.mem_cons.mp hx], hx2⟩,
              ⟨y, by simp [List.mem_cons.mp hy], hy2⟩⟩

lemma payloadChanges_constant {tl : List (ℚ × List ℕ)} {v : List ℕ}
    (h : ∀ x ∈ tl, x.2 = v) : payloadChanges tl = [] := by
  induction tl with
  | nil => rfl
  | cons a tail ih =>
      cases tail with
      | nil => rfl
      | cons b rest =>
          have hab : a.2 = b.2 := by
            rw [h a (by simp), h b (by simp)]
          rw [payloadChanges_cons_cons, if_neg (not_ne_iff.mpr hab), List.nil_append]
          exact ih (fun x hx => h x (List.mem_cons_of_mem a hx))

lemma constant_payloads_toFinset {tl : List (ℚ × List ℕ)} {v : List ℕ}
    (hne : tl ≠ []) (h : ∀ x ∈ tl, x.2 = v) :
    (tl.map (fun x => x.2)).toFinset = {v} := by
  ext z
  simp only [List.mem_toFinset, List.mem_map, Finset.mem_singleton]
  constructor
  · rintro ⟨a, ha, rfl⟩
    exact h a ha
  · rintro rfl
    obtain ⟨a, ha⟩ := List.exists_mem_of_ne_nil tl hne
    exact ⟨a, ha, h a ha⟩

lemma uniquePayloads_eq {tl : List (ℚ × List ℕ)}
    (h : ∃ x ∈ tl, ∃ y ∈ tl, x.2 ≠ y.2) :
    uniquePayloads tl = (tl.map (fun x => x.2)).toFinset := by
  induction tl with
  | nil =>
      obtain ⟨x, hx, -⟩ := h
      simp at hx
  | cons a tail ih =>
      cases tail with
      | nil =>
          obtain ⟨x, hx, y, hy, hxy⟩ := h
          rw [List.mem_singleton] at hx hy
          subst hx
          subst hy
          exact absurd rfl hxy
      | cons b rest =>
          by_cases hab : a.2 = b.2
          · have hu : uniquePayloads (a :: b :: rest) = uniquePayloads (b :: rest) := by
              unfold uniquePayloads
              rw [payloadChanges_cons_cons, if_neg (not_ne_iff.mpr hab), List.nil_append]
            have hmem : ∀ z ∈ (a :: b :: rest), ∃ w ∈ (b :: rest), w.2 = z.2 := by
              intro z hz
              rcases List.mem_cons.mp hz with rfl | hz'
              · exact ⟨b, by simp, hab.symm⟩
              · exact ⟨z, hz', rfl⟩
            have h' : ∃ x ∈ (b :: rest), ∃ y ∈ (b :: rest), x.2 ≠ y.2 := by
              obtain ⟨x, hx, y, hy, hxy⟩ := h
              obtain ⟨x', hx', hx2⟩ := hmem x hx
              obtain ⟨y', hy', hy2⟩ := hmem y hy
              exact ⟨x', hx', y', hy', by rw [hx2, hy2]; exact hxy⟩
            rw [hu, ih h']
            simp [List.toFinset_cons, hab]
          · have hu : uniquePayloads (a :: b :: rest)
                = insert a.2 (insert b.2 (uniquePayloads (b :: rest))) := by
              unfold uniquePayloads
              rw [payloadChanges_cons_cons, if_pos hab]
              simp [List.toFinset_cons]
            by_cases hconst : ∀ z ∈ (b :: rest), z.2 = b.2
            · have hch : payloadChanges (b :: rest) = [] := payloadChanges_constant hconst
              have hu2 : uniquePayloads (b :: rest) = ∅ := by
                unfold uniquePayloads
                rw [hch]
                rfl
              have hset : ((b :: rest).map (fun x => x.2)).toFinset = {b.2} :=
                constant_payloads_toFinset (by simp) hconst
              rw [hu, hu2, List.map_cons, List.toFinset_cons, hset]
              rfl
            · push_neg at hconst
              obtain ⟨z, hz, hzb⟩ := hconst
              have h' : ∃ x ∈ (b :: rest), ∃ y ∈ (b :: rest), x.2 ≠ y.2 :=
                ⟨z, hz, b, by simp, hzb⟩
              rw [hu, ih h']
              simp [List.toFinset_cons]

lemma sortedTimeline_payloads (msgs : List CANMsg) :
    ((sortedTimeline msgs).map (fun x => x.2)).toFinset = payloadSet msgs := by
  unfold sortedTimeline payloadSet
  have hperm := List.mergeSort_perm (msgs.map (fun m => (m.timestamp, m.data)))
    (fun x y => decide (x.1 ≤ y.1))
  have hp2 := hperm.map (fun x : ℚ × List ℕ => x.2)
  ext z
  simp only [List.mem_toFinset]
  rw [hp2.mem_iff]
  simp [List.map_map, Function.comp]

lemma uniquePayloads_card_two (msgs : List CANMsg) :
    (uniquePayloads (sortedTimeline msgs)).card = 2 ↔ (payloadSet msgs).card = 2 := by
  constructor
  · intro h2
    have hne : uniquePayloads (sortedTimeline msgs) ≠ ∅ := by
      intro he
      rw [he] at h2
      simp at h2
    obtain ⟨w, hw⟩ := Finset.nonempty_iff_ne_empty.mpr hne
    unfold uniquePayloads at hw
    rw [List.mem_toFinset, List.mem_flatMap] at hw
    obtain ⟨c, hc, -⟩ := hw
    obtain ⟨hcne, ⟨x, hx, hx2⟩, ⟨y, hy, hy2⟩⟩ := payloadChanges_mem hc
    have hxy : ∃ p ∈ sortedTimeline msgs, ∃ q ∈ sortedTimeline msgs, p.2 ≠ q.2 :=
      ⟨x, hx, y, hy, by rw [hx2, hy2]; exact hcne⟩
    rw [uniquePayloads_eq hxy, sortedTimeline_payloads] at h2
    exact h2
  · intro h2
    have h1 : 1 < (payloadSet msgs).card := by omega
    obtain ⟨u, hu, v, hv, huv⟩ := Finset.one_lt_card.mp h1
    rw [← sortedTimeline_payloads] at hu hv
    rw [List.mem_toFinset, List.mem_map] at hu hv
    obtain ⟨p, hp, hp2⟩ := hu
    obtain ⟨q, hq, hq2⟩ := hv
    have hxy : ∃ x ∈ sortedTimeline msgs, ∃ y ∈ sortedTimeline msgs, x.2 ≠ y.2 :=
      ⟨p, hp, q, hq, by rw [hp2, hq2]; exact huv⟩
    rw [uniquePayloads_eq hxy, sortedTimeline_payloads]
    exact h2

/-- C6: for a toggle capture with a non-empty toggle event list, an id is
classified `is_binary_toggle` iff the set of all payloads seen for that id has
exactly 2 elements AND `correlated_changes / len(toggle_events) >= 0.6`; an id
carrying 3 or more distinct payloads is never classified, whatever its
correlation ratio. (The code builds `unique_payloads` only from payloads that
take part in a change, but for an id with at least two distinct payloads that
set provably equals the set of all payloads seen.) -/
theorem c6_binary_toggle (events : List ToggleEvent) (msgs : List CANMsg)
    (h : events ≠ []) :
    (isBinaryToggle events msgs = true ↔
      ((payloadSet msgs).card = 2 ∧
        (3 / 5 : ℚ) ≤ (correlatedChanges events (payloadChanges (sortedTimeline msgs)) : ℚ)
            / (events.length : ℚ))) ∧
    (3 ≤ (payloadSet msgs).card → isBinaryToggle events msgs = false) := by
  have hratio : correlationRatio events
      (correlatedChanges events (payloadChanges (sortedTimeline msgs)))
        = (correlatedChanges events (payloadChanges (sortedTimeline msgs)) : ℚ)
            / (events.length : ℚ) := by
    unfold correlationRatio
    rw [if_pos h]
  have hiff : isBinaryToggle events msgs = true ↔
      ((payloadSet msgs).card = 2 ∧
        (3 / 5 : ℚ) ≤ (correlatedChanges events (payloadChanges (sortedTimeline msgs)) : ℚ)
            / (events.length : ℚ)) := by
    unfold isBinaryToggle
    simp only []
    split_ifs with hcard
    · rw [decide_eq_true_eq, hratio]
      constructor
      · intro hr
        exact ⟨(uniquePayloads_card_two msgs).mp hcard, hr⟩
      · rintro ⟨-, hr⟩
        exact hr
    · constructor
      · intro hfalse
        exact absurd hfalse (by simp)
      · rintro ⟨hc2, -⟩
        exact absurd ((uniquePayloads_card_two msgs).mpr hc2) hcard
  refine ⟨hiff, fun h3 => ?_⟩
  cases hbool : isBinaryToggle events msgs
  · rfl
  · have := (hiff.mp hbool).1
    omega

/-- A single toggle event for the C6 witness. -/
def evToggle : ToggleEvent :=
  { timestamp := 1, from_state := "off", to_state := "on", toggle_number := 1 }

/-- Frames of one id carrying three distinct payloads. -/
def msgsThreePayloads : List CANMsg :=
  [{ timestamp := 1, arbitration_id := 0x3C3, dlc := 1, data := [0],
     is_extended_id := false, is_remote_frame := false, is_error_frame := false },
   { timestamp := 2, arbitration_id := 0x3C3, dlc := 1, data := [1],
     is_extended_id := false, is_remote_frame := false, is_error_frame := false },
   { timestamp := 3, arbitration_id := 0x3C3, dlc := 1, data := [2],
     is_extended_id := false, is_remote_frame := false, is_error_frame := false }]

/-- C6 witness: an id with three distinct payloads is never classified,
by the classification characterisation applied at a concrete capture. -/
theorem c6_binary_toggle_witness :
    isBinaryToggle [evToggle] msgsThreePayloads = false :=
  (c6_binary_toggle [evToggle] msgsThreePayloads (by simp)).2 (by
    have : payloadSet msgsThreePayloads = {[0], [1], [2]} := by
      simp [payloadSet, msgsThreePayloads]
    rw [this]
    decide)

/- ===================================================================
   C10: the correlation counter is bounded by the number of toggle events
   =================================================================== -/

/-- A payload change at t = 2 lying inside the ±2 s window of both events. -/
def sharedChange : PayloadChange :=
  { timestamp := 2, from_payload := [0], to_payload := [1] }

/-- First toggle event, t = 1. -/
def evFirst : ToggleEvent :=
  { timestamp := 1, from_state := "off", to_state := "on", toggle_number := 1 }

/-- Second toggle event, t = 3. -/
def evSecond : ToggleEvent :=
  { timestamp := 3, from_state := "on", to_state := "off", toggle_number := 2 }

/-- C10: each toggle event contributes at most one matched change (the first
within its ±2.0 s window), so `correlated_changes <= len(toggle_events)`, the
correlation ratio is at most 1 and `binary_confidence` at most 100 even before
the clamp; yet one and the same change can be counted for several events, as
the two concrete events sharing `sharedChange` show. -/
theorem c10_correlation_bound :
    (∀ (events : List ToggleEvent) (changes : List PayloadChange),
        correlatedChanges events changes ≤ events.length) ∧
    (∀ (events : List ToggleEvent) (msgs : List CANMsg), events ≠ [] →
        correlationRatio events
            (correlatedChanges events (payloadChanges (sortedTimeline msgs))) ≤ 1 ∧
        binaryConfidence events msgs ≤ 100) ∧
    (matchedChange [sharedChange] evFirst = some sharedChange ∧
     matchedChange [sharedChange] evSecond = some sharedChange ∧
     evFirst ≠ evSecond ∧
     correlatedChanges [evFirst, evSecond] [sharedChange] = 2) := by
  have hbound : ∀ (events : List ToggleEvent) (changes : List PayloadChange),
      correlatedChanges events changes ≤ events.length := by
    intro events changes
    exact List.length_filter_le _ _
  have hm1 : matchedChange [sharedChange] evFirst = some sharedChange := by
    unfold matchedChange
    rw [List.find?_cons_of_pos]
    rw [decide_eq_true_eq]
    norm_num [sharedChange, evFirst]
  have hm2 : matchedChange [sharedChange] evSecond = some sharedChange := by
    unfold matchedChange
    rw [List.find?_cons_of_pos]
    rw [decide_eq_true_eq]
    norm_num [sharedChange, evSecond]
  refine ⟨hbound, ?_, hm1, hm2, ?_, ?_⟩
  · intro events msgs h
    have hlen : 0 < events.length := List.length_pos.mpr h
    constructor
    · unfold correlationRatio
      rw [if_pos h]
      rw [div_le_one (by exact_mod_cast hlen)]
      exact_mod_cast hbound events _
    · unfold binaryConfidence
      split_ifs
      · exact min_le_right _ _
      · norm_num
  · intro heq
    have := congrArg ToggleEvent.toggle_number heq
    simp [evFirst, evSecond] at this
  · unfold correlatedChanges
    simp [List.filter, hm1, hm2]

/-- C10 witness: the ratio and confidence bounds applied to the two concrete
toggle events against an empty frame list. -/
theorem c10_correlation_bound_witness :
    correlationRatio [evFirst, evSecond]
        (correlatedChanges [evFirst, evSecond] (payloadChanges (sortedTimeline []))) ≤ 1 ∧
    binaryConfidence [evFirst, evSecond] [] ≤ 100 :=
  c10_correlation_bound.2.1 [evFirst, evSecond] [] (by simp)
